import Mathlib

/-!
# Verification of the `arb_monitor` ingestion and aggregation engine

Shallow embedding of the Rust sources of `arb_monitor`:
* `src/orderbook.rs` — `Orderbook` (sorted price ladders), `AggregatedOrderbook`
  (`merge` / `finalize`), `Level`, `Summary`;
* `src/exchange/mod.rs` — the feed driver `Exchange::next` (frame dispatch,
  fragment reassembly cache, parse dispatch);
* `src/main.rs` — the supervisor loop `executor`;
* `src/apitree/wsapi.rs` — the per-exchange frame parsers (`binance`,
  `independentreserve`, `kraken`).

Modelling conventions:
* `bigdecimal::BigDecimal` (exact arbitrary-precision decimals, numeric order,
  numeric equality) is modelled as `ℚ`; every operation the engine performs on
  decimals (comparison, subtraction, zero test) agrees with the rational one.
* `BTreeMap<BigDecimal, V>` is modelled as an association list strictly sorted
  in ascending key order (`MapSorted`); iteration order of the list is the
  iteration order of the map.
* `HashMap<String, V>` (iteration order irrelevant to every property proved
  here) is modelled as an association list where `insert` prepends after
  removing the key.
* Wall-clock reads (`get_unixtime()`) are passed in as an explicit `now`
  argument.
* `serde_json` deserialization is external library code; parsers are modelled
  on the already-deserialized envelope values, with a `.error` embedding for
  payloads whose inner deserialization fails.
-/

namespace ArbMonitor

/-- Prices and quantities: `bigdecimal::BigDecimal`, modelled as `ℚ`. -/
abbrev Dec := ℚ

/-- `Side` from src/orderbook.rs. -/
inductive Side where
  | Bid
  | Ask
deriving DecidableEq

/-- A `BTreeMap<BigDecimal, α>`: association list strictly ascending by key. -/
def MapSorted {α : Type} (l : List (Dec × α)) : Prop :=
  List.Pairwise (fun a b => a.1 < b.1) l

instance {α : Type} (l : List (Dec × α)) : Decidable (MapSorted l) := by
  unfold MapSorted; infer_instance

/-- `BTreeMap::remove(&price)`: drop the (unique, in a sorted map) entry with
the given key. -/
def mapRemove {α : Type} (p : Dec) : List (Dec × α) → List (Dec × α)
  | [] => []
  | (k, v) :: rest => if k = p then rest else (k, v) :: mapRemove p rest

/-- `BTreeMap::insert(price, v)`: ordered insertion, replacing an existing
entry with the same key. -/
def mapInsert {α : Type} (p : Dec) (v : α) : List (Dec × α) → List (Dec × α)
  | [] => [(p, v)]
  | (k, w) :: rest =>
    if p < k then (p, v) :: (k, w) :: rest
    else if p = k then (p, v) :: rest
    else (k, w) :: mapInsert p v rest

/-- `BTreeMap::get`: first (unique, in a sorted map) entry with the key. -/
def mapLookup {α : Type} (p : Dec) : List (Dec × α) → Option α
  | [] => none
  | (k, v) :: rest => if k = p then some v else mapLookup p rest

/-- `Orderbook` from src/orderbook.rs (field for field). -/
structure Orderbook where
  name : String
  timestamp : ℕ
  volume : Dec
  last_price : Dec
  bid : List (Dec × Dec)
  ask : List (Dec × Dec)
deriving DecidableEq

/-- `Orderbook::new(name)`: zero scalars, empty ladders, local wall time. -/
def Orderbook.new (name : String) (now : ℕ) : Orderbook :=
  { name := name, timestamp := now, volume := 0, last_price := 0,
    bid := [], ask := [] }

/-- `Orderbook::insert(side, price, volume)`: remove any entry at `price`;
insert `(price, volume)` only when `volume` is non-zero; refresh `timestamp`
to the wall clock (the crossed-book check on the source's lines 52-58 only
logs and changes no state). -/
def Orderbook.insert (ob : Orderbook) (side : Side) (price volume : Dec)
    (now : ℕ) : Orderbook :=
  match side with
  | .Bid =>
    let b := mapRemove price ob.bid
    { ob with bid := if volume ≠ 0 then mapInsert price volume b else b,
              timestamp := now }
  | .Ask =>
    let a := mapRemove price ob.ask
    { ob with ask := if volume ≠ 0 then mapInsert price volume a else a,
              timestamp := now }

/-- `Orderbook::trim(level)`: the source pops the first (lowest) bid
`len - level` times and pops the last (highest) ask `len - level` times;
on the sorted-list model that is `drop (len - level)` and `take level`. -/
def Orderbook.trim (ob : Orderbook) (level : ℕ) : Orderbook :=
  { ob with bid := ob.bid.drop (ob.bid.length - level),
            ask := ob.ask.take level }

/-- One `insert` instruction (side, price, quantity, wall time at the call). -/
structure InsOp where
  side : Side
  price : Dec
  qty : Dec
  now : ℕ

/-- A book built by a sequence of `insert` calls starting from
`Orderbook::new`. -/
def buildBook (name : String) (t0 : ℕ) (ops : List InsOp) : Orderbook :=
  ops.foldl (fun ob op => ob.insert op.side op.price op.qty op.now)
    (Orderbook.new name t0)

/-- `HashMap::remove(name)` on the assoc-list model of `HashMap<String, α>`. -/
def hmRemove {α : Type} (k : String) (l : List (String × α)) :
    List (String × α) :=
  l.filter (fun e => e.1 ≠ k)

/-- `HashMap::insert` after `remove` (the pattern used by `merge`). -/
def hmPut {α : Type} (k : String) (v : α) (l : List (String × α)) :
    List (String × α) :=
  (k, v) :: hmRemove k l

/-- `HashMap::get` on the assoc-list model. -/
def hmLookup {α : Type} (k : String) : List (String × α) → Option α
  | [] => none
  | (k', v) :: rest => if k' = k then some v else hmLookup k rest

/-- `AggregatedOrderbook` from src/orderbook.rs. The `spread: f64` field is
`NaN` at `new()` and `0.0` after any `merge`, and is never read by
`finalize` (which recomputes the spread); `NaN` is modelled as `none`. -/
structure AggregatedOrderbook where
  spread : Option Dec
  bid : List (Dec × List (String × Dec))
  ask : List (Dec × List (String × Dec))
  timestamp : List (String × ℕ)
  volume : List (String × Dec)
  last_price : List (String × Dec)

/-- `AggregatedOrderbook::new()`. -/
def AggregatedOrderbook.new : AggregatedOrderbook :=
  { spread := none, bid := [], ask := [], timestamp := [], volume := [],
    last_price := [] }

/-- `self.bid.entry(price).and_modify(|e| e.push((name, vol))).or_insert_with(
|| vec![(name, vol)])` on the sorted assoc-list model of the `BTreeMap`. -/
def aggAdd (name : String) (p v : Dec) :
    List (Dec × List (String × Dec)) → List (Dec × List (String × Dec))
  | [] => [(p, [(name, v)])]
  | (k, es) :: rest =>
    if p < k then (p, [(name, v)]) :: (k, es) :: rest
    else if p = k then (k, es ++ [(name, v)]) :: rest
    else (k, es) :: aggAdd name p v rest

/-- `AggregatedOrderbook::merge(&orderbook)`: walk each ladder in map
(ascending-key) order, appending one `(name, volume)` contribution per price
and breaking after the 10th entry (`if counter == 10 break`, i.e. the first
up-to-10 entries of the iteration); reset `spread` to `0.0`; replace this
exchange's entry in the three scalar maps. -/
def AggregatedOrderbook.merge (agg : AggregatedOrderbook) (ob : Orderbook) :
    AggregatedOrderbook :=
  { spread := some 0,
    bid := (ob.bid.take 10).foldl
      (fun acc pv => aggAdd ob.name pv.1 pv.2 acc) agg.bid,
    ask := (ob.ask.take 10).foldl
      (fun acc pv => aggAdd ob.name pv.1 pv.2 acc) agg.ask,
    timestamp := hmPut ob.name ob.timestamp agg.timestamp,
    volume := hmPut ob.name ob.volume agg.volume,
    last_price := hmPut ob.name ob.last_price agg.last_price }

/-- `Level` from src/orderbook.rs; the source stores `price.to_string()` and
`amount.to_string()`, rendered from the canonical decimal — the numeric
values are kept here. -/
structure Level where
  exchange : String
  price : Dec
  amount : Dec
deriving DecidableEq

/-- `Summary` from src/orderbook.rs; `spread` is the rendered decimal string
in the source ("0" when a side is empty), kept numeric here. -/
structure Summary where
  spread : Dec
  bids : List Level
  asks : List Level
  timestamp : List (String × ℕ)
  volume : List (String × Dec)
  last_price : List (String × Dec)

/-- The cursor walk of `finalize` over one aggregated ladder, emitting one
`Level` per `(exchange, volume)` contribution of each visited price in vector
(push) order. -/
def aggLevels (l : List (Dec × List (String × Dec))) : List Level :=
  l.flatMap (fun pe => pe.2.map (fun nv => ⟨nv.1, pe.1, nv.2⟩))

/-- `AggregatedOrderbook::finalize()`: bids are walked from the upper bound
downwards (the reverse of ascending map order), asks from the lower bound
upwards; no cap is applied to either walk. The spread is
`best_ask - best_bid` when both sides are non-empty and `"0"` otherwise.
The source wraps the summary in `Ok(...)` and never fails. -/
def AggregatedOrderbook.finalize (agg : AggregatedOrderbook) : Summary :=
  { spread :=
      match agg.bid.getLast?, agg.ask.head? with
      | some b, some a => a.1 - b.1
      | _, _ => 0,
    bids := aggLevels agg.bid.reverse,
    asks := aggLevels agg.ask,
    timestamp := agg.timestamp,
    volume := agg.volume,
    last_price := agg.last_price }

/-- `new()` followed by `merge` of each book in order (the supervisor's
rebuild-from-cache pattern in `setup_marketdata`, src/main.rs lines 168-174). -/
def mergeAll (obs : List Orderbook) : AggregatedOrderbook :=
  obs.foldl AggregatedOrderbook.merge AggregatedOrderbook.new

/-! ## Feed driver (`Exchange::next`, src/exchange/mod.rs lines 100-186) and
supervisor loop (`executor`, src/main.rs lines 115-147). -/

/-- The value of one `Exchange::next().await` call. -/
inductive NextResult where
  | book (ob : Orderbook)
  | idle
  | err (e : String)
deriving DecidableEq

/-- One `awc::ws::Frame` as dispatched by the driver's read loop. -/
inductive WsFrame where
  | text (s : String)
  | binary (s : String)
  | fragFirst (s : String)
  | fragCont (s : String)
  | fragLast (s : String)
  | ping
  | pong
  | close
deriving DecidableEq

/-- An exchange's registry `parse` entry, as the driver sees it:
raw text frame in, `Ok(None) | Ok(Some(book)) | Err` out. -/
abbrev Parse := String → Except String (Option Orderbook)

/-- `Exchange::next` (websocket branch): reads frames until it returns.
State: `cache`, the driver's fragment-reassembly buffer. Text and binary
frames are fed to `parse`; a parse error is wrapped as
`anyhow!("{}: raw msg: {}", e, raw)` and returned; a parse `None` is skipped
and the loop keeps reading; a book is trimmed to `self.level` (10, set in
`Exchange::new`) and returned. Fragment-first and fragment-continue append to
`cache` and return `Ok(None)`; fragment-last feeds `cache + payload` to
`parse` after clearing `cache`. Ping and pong return `Ok(None)`; close
returns an error (the source formats it as "close {exchange}"); the stream
ending returns `Ok(None)`. The wall-clock branches of `next` — the heartbeat
send (lines 131-143) and the forced-reconnect check (lines 144-150), both
gated on elapsed `Instant`s and disabled for every registry entry with
`heartbeat = None` / `reconnect_sec = None` — and the poll-mode branch
(lines 101-114) are outside this model of a stream session. Returns the
final cache, the frames not yet consumed, and the call's value. -/
def exchNext (parse : Parse) : String → List WsFrame →
    String × List WsFrame × NextResult
  | cache, [] => (cache, [], .idle)
  | cache, .text s :: rest =>
    match parse s with
    | .error e => (cache, rest, .err (e ++ ": raw msg: " ++ s))
    | .ok none => exchNext parse cache rest
    | .ok (some ob) => (cache, rest, .book (ob.trim 10))
  | cache, .binary s :: rest =>
    match parse s with
    | .error e => (cache, rest, .err (e ++ ": raw msg: " ++ s))
    | .ok none => exchNext parse cache rest
    | .ok (some ob) => (cache, rest, .book (ob.trim 10))
  | cache, .fragFirst s :: rest => (cache ++ s, rest, .idle)
  | cache, .fragCont s :: rest => (cache ++ s, rest, .idle)
  | cache, .fragLast s :: rest =>
    match parse (cache ++ s) with
    | .error e => ("", rest, .err (e ++ ": raw msg: " ++ (cache ++ s)))
    | .ok none => exchNext parse "" rest
    | .ok (some ob) => ("", rest, .book (ob.trim 10))
  | cache, .ping :: rest => (cache, rest, .idle)
  | cache, .pong :: rest => (cache, rest, .idle)
  | cache, .close :: rest => (cache, rest, .err "close")

/-- What the supervisor's `executor` loop does with one `next()` value
(src/main.rs lines 126-145): `Ok(Some)` is sent to the aggregator channel and
the loop continues with the same session; `Ok(None)` and `Err` both fall
through to `client.clear()`, `client = Exchange::new(..)` and a fresh
`connect` — the session is torn down and reconnected. -/
inductive SupervisorStep where
  | emit (ob : Orderbook)
  | teardownReconnect
deriving DecidableEq

/-- `executor`'s match on the `next()` result (src/main.rs lines 126-137). -/
def executorReaction : NextResult → SupervisorStep
  | .book ob => .emit ob
  | .idle => .teardownReconnect
  | .err _ => .teardownReconnect

theorem exchNext_rest_le (parse : Parse) :
    ∀ (fs : List WsFrame) (c : String),
      (exchNext parse c fs).2.1.length ≤ fs.length := by
  intro fs
  induction fs with
  | nil => intro c; simp [exchNext]
  | cons f rest ih =>
    intro c
    cases f with
    | text s =>
      cases hp : parse s with
      | error e => simp [exchNext, hp]
      | ok o =>
        cases o with
        | none => simp only [exchNext, hp]; exact (ih c).trans (Nat.le_succ _)
        | some ob => simp [exchNext, hp]
    | binary s =>
      cases hp : parse s with
      | error e => simp [exchNext, hp]
      | ok o =>
        cases o with
        | none => simp only [exchNext, hp]; exact (ih c).trans (Nat.le_succ _)
        | some ob => simp [exchNext, hp]
    | fragFirst s => simp [exchNext]
    | fragCont s => simp [exchNext]
    | fragLast s =>
      cases hp : parse (c ++ s) with
      | error e => simp [exchNext, hp]
      | ok o =>
        cases o with
        | none => simp only [exchNext, hp]; exact (ih "").trans (Nat.le_succ _)
        | some ob => simp [exchNext, hp]
    | ping => simp [exchNext]
    | pong => simp [exchNext]
    | close => simp [exchNext]

theorem exchNext_cons_rest_le (parse : Parse) (c : String) (f : WsFrame)
    (fs : List WsFrame) :
    (exchNext parse c (f :: fs)).2.1.length ≤ fs.length := by
  cases f with
  | text s =>
    cases hp : parse s with
    | error e => simp [exchNext, hp]
    | ok o =>
      cases o with
      | none => simp only [exchNext, hp]; exact exchNext_rest_le parse fs c
      | some ob => simp [exchNext, hp]
  | binary s =>
    cases hp : parse s with
    | error e => simp [exchNext, hp]
    | ok o =>
      cases o with
      | none => simp only [exchNext, hp]; exact exchNext_rest_le parse fs c
      | some ob => simp [exchNext, hp]
  | fragFirst s => simp [exchNext]
  | fragCont s => simp [exchNext]
  | fragLast s =>
    cases hp : parse (c ++ s) with
    | error e => simp [exchNext, hp]
    | ok o =>
      cases o with
      | none => simp only [exchNext, hp]; exact exchNext_rest_le parse fs ""
      | some ob => simp [exchNext, hp]
  | ping => simp [exchNext]
  | pong => simp [exchNext]
  | close => simp [exchNext]

/-- The `executor` loop of src/main.rs run over a finite incoming frame
sequence, collecting the books sent to the aggregator channel. On
`Ok(Some(book))` the loop continues with the same `Exchange` (its cache
preserved); on `Ok(None)` or `Err` it tears the session down and builds a
fresh `Exchange` (`cache = ""`). -/
def executorRun (parse : Parse) (cache : String) (frames : List WsFrame) :
    List Orderbook :=
  match hf : frames with
  | [] => []
  | f :: fs =>
    match h : exchNext parse cache (f :: fs) with
    | (c', rest, .book ob) => ob :: executorRun parse c' rest
    | (_, rest, .idle) => executorRun parse "" rest
    | (_, rest, .err _) => executorRun parse "" rest
termination_by frames.length
decreasing_by
  all_goals
    have hle := exchNext_cons_rest_le parse cache f fs
    rw [h] at hle
    exact Nat.lt_succ_of_le hle

/-! ## Per-exchange parsers (src/apitree/wsapi.rs). -/

/-- A `serde_json::Value` as the binance parser observes it: the only test
performed is `result != Value::Null`. -/
inductive SerdeValue where
  | null
  | notNull (repr : String)
deriving DecidableEq

/-- `PartialBookDepth` (src/apitree/wsapi.rs lines 43-51): every field is
serde-defaulted, so a frame missing a field deserializes with
`last_update_id = 0`, empty ladders, `result = Null`, `id = 0`. -/
structure PartialBookDepth where
  last_update_id : ℕ
  bids : List (String × String)
  asks : List (String × String)
  result : SerdeValue
  id : ℕ
deriving DecidableEq

/-- Numeric value of a run of decimal digits. -/
def natOfDigits (l : List Char) : ℕ :=
  l.foldl (fun a c => a * 10 + (c.toNat - ('0' : Char).toNat)) 0

/-- Strip an optional leading `+` or `-`, returning the sign. -/
def stripSign : List Char → Int × List Char
  | [] => (1, [])
  | c :: rest =>
    if c = '+' then (1, rest)
    else if c = '-' then (-1, rest)
    else (1, c :: rest)

/-- Mantissa part of `BigDecimal::from_str`: `[+-]? digits ["." digits]`
with at least one digit overall; yields the digits as a signed integer and
the number of fractional digits. -/
def parseMantissa (l : List Char) : Option (Int × ℕ) :=
  let (s, l1) := stripSign l
  let intPart := l1.takeWhile Char.isDigit
  let rest1 := l1.dropWhile Char.isDigit
  match rest1 with
  | [] =>
    if intPart.isEmpty then none
    else some (s * (natOfDigits intPart : Int), 0)
  | c :: rest2 =>
    if c = '.' then
      let fracPart := rest2.takeWhile Char.isDigit
      if rest2.dropWhile Char.isDigit ≠ [] then none
      else if intPart.isEmpty ∧ fracPart.isEmpty then none
      else some (s * (natOfDigits (intPart ++ fracPart) : Int), fracPart.length)
    else none

/-- `BigDecimal::from_str`: `mantissa ["e"|"E" exponent]`; value is
`mantissa * 10^(exponent - fraction_digits)`. -/
def parseDecimal (str : String) : Option Dec :=
  let l := str.data
  let base := l.takeWhile (fun c => !(c == 'e' || c == 'E'))
  let expPart := l.dropWhile (fun c => !(c == 'e' || c == 'E'))
  match parseMantissa base with
  | none => none
  | some (m, frac) =>
    match expPart with
    | [] => some ((m : Dec) / (10 : Dec) ^ frac)
    | _ :: expChars =>
      let (es, edigits) := stripSign expChars
      if edigits.isEmpty ∨ ¬ edigits.all Char.isDigit then none
      else
        let e : Int := es * (natOfDigits edigits : Int)
        some ((m : Dec) * (10 : Dec) ^ (e - (frac : Int)))

/-- The two `for [price_str, quantity_str] in ...` loops of the binance
parser: parse both decimals (failing the frame on a malformed decimal) and
`Orderbook::insert` them. -/
def insertPairs (side : Side) (pairs : List (String × String))
    (ob : Orderbook) (now : ℕ) : Except String Orderbook :=
  match pairs with
  | [] => .ok ob
  | (ps, qs) :: rest =>
    match parseDecimal ps with
    | none => .error ("ParseBigDecimalError: " ++ ps)
    | some p =>
      match parseDecimal qs with
      | none => .error ("ParseBigDecimalError: " ++ qs)
      | some q => insertPairs side rest (ob.insert side p q now) now

/-- `binance_parser` (src/apitree/wsapi.rs lines 42-75), modelled from the
point where `serde_json::from_str` has produced the defaulted
`PartialBookDepth` envelope (a frame that is not valid JSON errors before
this point). Subscription-echo check first, then the `result != Null`
rejection, then the book construction. -/
def binanceParse (pbd : PartialBookDepth) (now : ℕ) :
    Except String (Option Orderbook) :=
  if pbd.last_update_id = 0 ∧ pbd.bids = [] ∧ pbd.asks = [] then .ok none
  else if pbd.result ≠ .null then .error "result not empty"
  else
    match insertPairs .Bid pbd.bids (Orderbook.new "binance" now) now with
    | .error e => .error e
    | .ok ob =>
      match insertPairs .Ask pbd.asks ob now with
      | .error e => .error e
      | .ok ob2 => .ok (some ob2)

/-- One `{Price, Volume}` unit of an independentreserve payload. The source
receives `f64` values and converts each through `format!("{}", x)` (shortest
round-trip rendering) followed by `BigDecimal::from_str`, which cannot fail
for the finite floats `serde_json` produces; the resulting decimal value is
modelled directly. -/
structure IRUnit where
  price : Dec
  volume : Dec
deriving DecidableEq

/-- The `Snapshot` payload (`Bids`, `Offers`) of an independentreserve
`OrderBookSnapshot` or `OrderBookChange` event. -/
structure IRSnapshot where
  bids : List IRUnit
  asks : List IRUnit
deriving DecidableEq

/-- The deserialized pascal-cased envelope of `indreserve_parser`, dispatched
on its `Event` string. The inner `Data` value is deserialized lazily in the
source (`serde_json::from_value`), which can fail: that fallible step is
embedded as an `Except`. -/
inductive IREvent where
  | subscriptions (data : Except String (List String))
  | snapshot (channel : String) (data : Except String IRSnapshot)
  | change (channel : String) (data : Except String IRSnapshot)
  | other

/-- The `INDRESERVE` mutex-guarded `HashMap<String, Orderbook>`. -/
abbrev IRState := List (String × Orderbook)

/-- One `for Unit { price, volume } in ...` loop: insert every unit. -/
def insertUnits (side : Side) (units : List IRUnit) (ob : Orderbook)
    (now : ℕ) : Orderbook :=
  units.foldl (fun b u => b.insert side u.price u.volume now) ob

/-- Both unit loops of `indreserve_parser`: bids then offers. -/
def applyIRSnapshot (ob : Orderbook) (snap : IRSnapshot) (now : ℕ) :
    Orderbook :=
  insertUnits .Ask snap.asks (insertUnits .Bid snap.bids ob now) now

/-- `indreserve_parser` (src/apitree/wsapi.rs lines 128-191).
`Subscriptions` pre-allocates an empty book per listed channel and yields
`None`; other non-book events yield `None`; a book event on an unknown
channel is an error; `OrderBookSnapshot` clears both ladders of the channel's
book before deserializing and inserting the payload (so a payload that fails
to deserialize still leaves the book cleared); `OrderBookChange` inserts the
payload deltas into the existing ladders (`qty = 0` deletes). Every book
event returns a clone of the updated book. -/
def indreserveParse (st : IRState) (ev : IREvent) (now : ℕ) :
    IRState × Except String (Option Orderbook) :=
  match ev with
  | .subscriptions d =>
    match d with
    | .error e => (st, .error e)
    | .ok chans =>
      (chans.foldl
        (fun s c => hmPut c (Orderbook.new "independentreserve" now) s) st,
       .ok none)
  | .other => (st, .ok none)
  | .snapshot ch d =>
    match hmLookup ch st with
    | none => (st, .error ("orderbook not exist for " ++ ch))
    | some ob =>
      let cleared := { ob with bid := [], ask := [] }
      match d with
      | .error e => (hmPut ch cleared st, .error e)
      | .ok snap =>
        let ob2 := applyIRSnapshot cleared snap now
        (hmPut ch ob2 st, .ok (some ob2))
  | .change ch d =>
    match hmLookup ch st with
    | none => (st, .error ("orderbook not exist for " ++ ch))
    | some ob =>
      match d with
      | .error e => (st, .error e)
      | .ok snap =>
        let ob2 := applyIRSnapshot ob snap now
        (hmPut ch ob2 st, .ok (some ob2))

/-- Control flow of the first statement of `kraken_parser`
(src/apitree/wsapi.rs lines 336-338): `raw.as_bytes()[0]` is indexed with no
emptiness check. -/
inductive KrakenDispatch where
  | indexOutOfBounds
  | returnsNone
  | parsesArray
deriving DecidableEq

/-- The left-brace character (written by code point to keep it out of
string literals). -/
def leftBrace : Char := Char.ofNat 123

/-- `if raw.as_bytes()[0] as char == chr(123) { return Ok(None); }` on the
character list of the raw frame: an empty frame panics with an
index-out-of-bounds, a frame starting with a left brace returns `Ok(None)`,
and anything else falls through to the positional-array parsing. -/
def krakenFirstByte (raw : List Char) : KrakenDispatch :=
  match raw with
  | [] => .indexOutOfBounds
  | c :: _ => if c = leftBrace then .returnsNone else .parsesArray

/-! ## Invariants of the sorted-map model. -/

theorem mapRemove_sublist {α : Type} (p : Dec) (l : List (Dec × α)) :
    (mapRemove p l).Sublist l := by
  induction l with
  | nil => exact List.Sublist.refl _
  | cons kv rest ih =>
    obtain ⟨k, v⟩ := kv
    by_cases h : k = p
    · simpa [mapRemove, h] using List.sublist_cons_self (k, v) rest
    · simpa [mapRemove, h] using ih.cons₂ (k, v)

theorem mapRemove_sorted {α : Type} {p : Dec} {l : List (Dec × α)}
    (h : MapSorted l) : MapSorted (mapRemove p l) :=
  List.Pairwise.sublist (mapRemove_sublist p l) h

theorem mapRemove_mem {α : Type} {x : Dec × α} {p : Dec} {l : List (Dec × α)}
    (hx : x ∈ mapRemove p l) : x ∈ l :=
  (mapRemove_sublist p l).mem hx

theorem mapInsert_mem {α : Type} {x : Dec × α} {p : Dec} {v : α} :
    ∀ {l : List (Dec × α)}, x ∈ mapInsert p v l → x = (p, v) ∨ x ∈ l := by
  intro l
  induction l with
  | nil => intro hx; simpa [mapInsert] using hx
  | cons kv rest ih =>
    obtain ⟨k, w⟩ := kv
    intro hx
    by_cases h1 : p < k
    · simp only [mapInsert, if_pos h1, List.mem_cons] at hx
      rcases hx with h | h | h
      · exact Or.inl h
      · exact Or.inr (by simp [h])
      · exact Or.inr (List.mem_cons_of_mem _ h)
    · by_cases h2 : p = k
      · simp only [mapInsert, if_neg h1, if_pos h2, List.mem_cons] at hx
        rcases hx with h | h
        · exact Or.inl h
        · exact Or.inr (List.mem_cons_of_mem _ h)
      · simp only [mapInsert, if_neg h1, if_neg h2, List.mem_cons] at hx
        rcases hx with h | h
        · exact Or.inr (by simp [h])
        · rcases ih h with h' | h'
          · exact Or.inl h'
          · exact Or.inr (List.mem_cons_of_mem _ h')

theorem mapInsert_sorted {α : Type} {p : Dec} {v : α} :
    ∀ {l : List (Dec × α)}, MapSorted l → MapSorted (mapInsert p v l) := by
  intro l
  induction l with
  | nil => intro _; simp [mapInsert, MapSorted]
  | cons kv rest ih =>
    obtain ⟨k, w⟩ := kv
    intro hs
    have hhead : ∀ x ∈ rest, k < x.1 := by
      intro x hx
      exact (List.pairwise_cons.mp hs).1 x hx
    have htail : MapSorted rest := (List.pairwise_cons.mp hs).2
    by_cases h1 : p < k
    · simp only [mapInsert, if_pos h1]
      refine List.pairwise_cons.mpr ⟨?_, hs⟩
      intro x hx
      rcases List.mem_cons.mp hx with h | h
      · simpa [h] using h1
      · exact h1.trans (hhead x h)
    · by_cases h2 : p = k
      · simp only [mapInsert, if_neg h1, if_pos h2]
        refine List.pairwise_cons.mpr ⟨?_, htail⟩
        intro x hx
        simpa [h2] using hhead x hx
      · have hk : k < p := by
          rcases lt_trichotomy p k with h | h | h
          · exact absurd h h1
          · exact absurd h h2
          · exact h
        simp only [mapInsert, if_neg h1, if_neg h2]
        refine List.pairwise_cons.mpr ⟨?_, ih htail⟩
        intro x hx
        rcases mapInsert_mem hx with h | h
        · simpa [h] using hk
        · exact hhead x h

/-- `Orderbook::insert` keeps both ladders sorted. -/
theorem insert_sorted (ob : Orderbook) (side : Side) (p v : Dec) (now : ℕ)
    (hb : MapSorted ob.bid) (ha : MapSorted ob.ask) :
    MapSorted (ob.insert side p v now).bid ∧
      MapSorted (ob.insert side p v now).ask := by
  cases side with
  | Bid =>
    have h1 : MapSorted (mapInsert p v (mapRemove p ob.bid)) :=
      mapInsert_sorted (mapRemove_sorted hb)
    have h2 : MapSorted (mapRemove p ob.bid) := mapRemove_sorted hb
    by_cases hv : v ≠ 0
    · constructor
      · simpa [Orderbook.insert, hv] using h1
      · simpa [Orderbook.insert, hv] using ha
    · constructor
      · simpa [Orderbook.insert, hv] using h2
      · simpa [Orderbook.insert, hv] using ha
  | Ask =>
    have h1 : MapSorted (mapInsert p v (mapRemove p ob.ask)) :=
      mapInsert_sorted (mapRemove_sorted ha)
    have h2 : MapSorted (mapRemove p ob.ask) := mapRemove_sorted ha
    by_cases hv : v ≠ 0
    · constructor
      · simpa [Orderbook.insert, hv] using hb
      · simpa [Orderbook.insert, hv] using h1
    · constructor
      · simpa [Orderbook.insert, hv] using hb
      · simpa [Orderbook.insert, hv] using h2

theorem foldl_insert_sorted (ops : List InsOp) :
    ∀ ob : Orderbook, MapSorted ob.bid → MapSorted ob.ask →
      MapSorted (ops.foldl
        (fun b op => b.insert op.side op.price op.qty op.now) ob).bid ∧
      MapSorted (ops.foldl
        (fun b op => b.insert op.side op.price op.qty op.now) ob).ask := by
  induction ops with
  | nil => intro ob hb ha; exact ⟨hb, ha⟩
  | cons op rest ih =>
    intro ob hb ha
    have h := insert_sorted ob op.side op.price op.qty op.now hb ha
    exact ih _ h.1 h.2

/-- A book built by `insert`s from `Orderbook::new` has sorted ladders. -/
theorem buildBook_sorted (name : String) (t0 : ℕ) (ops : List InsOp) :
    MapSorted (buildBook name t0 ops).bid ∧
      MapSorted (buildBook name t0 ops).ask :=
  foldl_insert_sorted ops (Orderbook.new name t0)
    (by simp [Orderbook.new, MapSorted]) (by simp [Orderbook.new, MapSorted])

theorem noZero_insert (ob : Orderbook) (side : Side) (p v : Dec) (now : ℕ)
    (hb : ∀ pv ∈ ob.bid, pv.2 ≠ 0) (ha : ∀ pv ∈ ob.ask, pv.2 ≠ 0) :
    (∀ pv ∈ (ob.insert side p v now).bid, pv.2 ≠ 0) ∧
      ∀ pv ∈ (ob.insert side p v now).ask, pv.2 ≠ 0 := by
  have hrb : ∀ pv ∈ mapRemove p ob.bid, pv.2 ≠ 0 :=
    fun pv hpv => hb pv (mapRemove_mem hpv)
  have hra : ∀ pv ∈ mapRemove p ob.ask, pv.2 ≠ 0 :=
    fun pv hpv => ha pv (mapRemove_mem hpv)
  cases side with
  | Bid =>
    by_cases hv : v ≠ 0
    · constructor
      · intro pv hpv
        simp only [Orderbook.insert, if_pos hv] at hpv
        rcases mapInsert_mem hpv with h | h
        · simpa [h] using hv
        · exact hrb pv h
      · intro pv hpv
        exact ha pv (by simpa [Orderbook.insert, hv] using hpv)
    · constructor
      · intro pv hpv
        exact hrb pv (by simpa [Orderbook.insert, hv] using hpv)
      · intro pv hpv
        exact ha pv (by simpa [Orderbook.insert, hv] using hpv)
  | Ask =>
    by_cases hv : v ≠ 0
    · constructor
      · intro pv hpv
        exact hb pv (by simpa [Orderbook.insert, hv] using hpv)
      · intro pv hpv
        simp only [Orderbook.insert, if_pos hv] at hpv
        rcases mapInsert_mem hpv with h | h
        · simpa [h] using hv
        · exact hra pv h
    · constructor
      · intro pv hpv
        exact hb pv (by simpa [Orderbook.insert, hv] using hpv)
      · intro pv hpv
        exact hra pv (by simpa [Orderbook.insert, hv] using hpv)

theorem noZero_foldl (ops : List InsOp) :
    ∀ ob : Orderbook, (∀ pv ∈ ob.bid, pv.2 ≠ 0) → (∀ pv ∈ ob.ask, pv.2 ≠ 0) →
      (∀ pv ∈ (ops.foldl
        (fun b op => b.insert op.side op.price op.qty op.now) ob).bid,
          pv.2 ≠ 0) ∧
      ∀ pv ∈ (ops.foldl
        (fun b op => b.insert op.side op.price op.qty op.now) ob).ask,
          pv.2 ≠ 0 := by
  induction ops with
  | nil => intro ob hb ha; exact ⟨hb, ha⟩
  | cons op rest ih =>
    intro ob hb ha
    have h := noZero_insert ob op.side op.price op.qty op.now hb ha
    exact ih _ h.1 h.2

theorem mapLookup_eq_none {α : Type} {p : Dec} :
    ∀ {l : List (Dec × α)}, (∀ x ∈ l, x.1 ≠ p) → mapLookup p l = none := by
  intro l
  induction l with
  | nil => intro _; rfl
  | cons kv rest ih =>
    obtain ⟨k, v⟩ := kv
    intro h
    have hk : k ≠ p := h (k, v) (List.mem_cons_self _ _)
    simp only [mapLookup, if_neg hk]
    exact ih fun x hx => h x (List.mem_cons_of_mem _ hx)

/-- Removing a key from a sorted map makes it unfindable. -/
theorem mapLookup_mapRemove_self {α : Type} {p : Dec} :
    ∀ {l : List (Dec × α)}, MapSorted l → mapLookup p (mapRemove p l) = none := by
  intro l
  induction l with
  | nil => intro _; rfl
  | cons kv rest ih =>
    obtain ⟨k, v⟩ := kv
    intro hs
    have hhead : ∀ x ∈ rest, k < x.1 := (List.pairwise_cons.mp hs).1
    have htail : MapSorted rest := (List.pairwise_cons.mp hs).2
    by_cases hk : k = p
    · simp only [mapRemove, if_pos hk]
      exact mapLookup_eq_none fun x hx => by
        have := hhead x hx
        rw [hk] at this
        exact (ne_of_gt this)
    · simp only [mapRemove, if_neg hk, mapLookup, if_neg hk]
      exact ih htail

/-! ## C5, C6: `trim` and zero-quantity deletion. -/

theorem pairwise_take_drop {α : Type} {R : α → α → Prop} {l : List α}
    (h : List.Pairwise R l) (n : ℕ) :
    ∀ a ∈ l.take n, ∀ b ∈ l.drop n, R a b := by
  have hl : l.take n ++ l.drop n = l := List.take_append_drop n l
  rw [← hl] at h
  exact (List.pairwise_append.mp h).2.2

/-- C5: for any book built by positive-quantity inserts and any `k`,
`trim(k)` keeps at most `k` levels per side, the kept bid levels are the
final (highest-price) segment of the bid ladder and the kept ask levels the
initial (lowest-price) segment of the ask ladder, every dropped bid price is
below every kept bid price, and every kept ask price is below every dropped
ask price. -/
theorem c5_trim_keeps_best (name : String) (t0 : ℕ) (ops : List InsOp)
    (k : ℕ) (hpos : ∀ op ∈ ops, 0 < op.qty) :
    ((buildBook name t0 ops).trim k).bid.length ≤ k ∧
    ((buildBook name t0 ops).trim k).ask.length ≤ k ∧
    ((buildBook name t0 ops).trim k).bid =
      (buildBook name t0 ops).bid.drop
        ((buildBook name t0 ops).bid.length - k) ∧
    ((buildBook name t0 ops).trim k).ask = (buildBook name t0 ops).ask.take k ∧
    (∀ a ∈ (buildBook name t0 ops).bid.take
        ((buildBook name t0 ops).bid.length - k),
      ∀ b ∈ ((buildBook name t0 ops).trim k).bid, a.1 < b.1) ∧
    (∀ a ∈ ((buildBook name t0 ops).trim k).ask,
      ∀ b ∈ (buildBook name t0 ops).ask.drop k, a.1 < b.1) := by
  have hsorted := buildBook_sorted name t0 ops
  refine ⟨?_, ?_, rfl, rfl, ?_, ?_⟩
  · simp only [Orderbook.trim, List.length_drop]
    omega
  · simp only [Orderbook.trim, List.length_take]
    omega
  · intro a ha b hb
    exact pairwise_take_drop hsorted.1 _ a ha b hb
  · intro a ha b hb
    exact pairwise_take_drop hsorted.2 k a ha b hb

/-- The S6-style input: bids at 10, 11, 12 and asks at 20, 21, 22, all with
quantity 1. -/
def s6ops : List InsOp :=
  [⟨.Bid, 10, 1, 0⟩, ⟨.Bid, 11, 1, 0⟩, ⟨.Bid, 12, 1, 0⟩,
   ⟨.Ask, 20, 1, 0⟩, ⟨.Ask, 21, 1, 0⟩, ⟨.Ask, 22, 1, 0⟩]

theorem c5_trim_keeps_best_witness :
    ((buildBook "x" 0 s6ops).trim 2).bid = [(11, 1), (12, 1)] ∧
    ((buildBook "x" 0 s6ops).trim 2).ask = [(20, 1), (21, 1)] ∧
    ((buildBook "x" 0 s6ops).trim 2).bid.length ≤ 2 ∧
    ((buildBook "x" 0 s6ops).trim 2).ask.length ≤ 2 :=
  ⟨by decide, by decide,
   (c5_trim_keeps_best "x" 0 s6ops 2 (by decide)).1,
   (c5_trim_keeps_best "x" 0 s6ops 2 (by decide)).2.1⟩

/-- C6: `insert(side, p, 0)` leaves the targeted ladder equal to itself with
`p` removed and the other ladder untouched, and a book built by `insert`s
from `new` never holds a zero-quantity level on either side. -/
theorem c6_insert_zero_deletes :
    (∀ (ob : Orderbook) (p : Dec) (now : ℕ),
      (ob.insert .Bid p 0 now).bid = mapRemove p ob.bid ∧
      (ob.insert .Bid p 0 now).ask = ob.ask ∧
      (ob.insert .Ask p 0 now).ask = mapRemove p ob.ask ∧
      (ob.insert .Ask p 0 now).bid = ob.bid) ∧
    ∀ (name : String) (t0 : ℕ) (ops : List InsOp) (pv : Dec × Dec),
      pv ∈ (buildBook name t0 ops).bid ∨ pv ∈ (buildBook name t0 ops).ask →
        pv.2 ≠ 0 := by
  constructor
  · intro ob p now
    refine ⟨?_, ?_, ?_, ?_⟩ <;> simp [Orderbook.insert]
  · intro name t0 ops pv hpv
    have h := noZero_foldl ops (Orderbook.new name t0)
      (by simp [Orderbook.new]) (by simp [Orderbook.new])
    rcases hpv with h1 | h1
    · exact h.1 pv h1
    · exact h.2 pv h1

/-! ## C9: kraken first-byte dispatch. -/

/-- C9: `kraken_parser` indexes `raw.as_bytes()[0]` with no emptiness check,
so the empty frame hits an out-of-bounds index (a panic); every non-empty
frame avoids it, and every frame whose first byte is a left brace returns
`Ok(None)`. -/
theorem c9_kraken_first_byte :
    krakenFirstByte [] = .indexOutOfBounds ∧
    (∀ rest : List Char, krakenFirstByte (leftBrace :: rest) = .returnsNone) ∧
    ∀ raw : List Char, raw ≠ [] → krakenFirstByte raw ≠ .indexOutOfBounds := by
  refine ⟨rfl, ?_, ?_⟩
  · intro rest
    simp [krakenFirstByte]
  · intro raw hraw
    cases raw with
    | nil => exact absurd rfl hraw
    | cons c rest =>
      by_cases hc : c = leftBrace <;> simp [krakenFirstByte, hc]

/-! ## C10: the binance parser's frame classification. -/

/-- C10 counterexample: a genuine depth update with `lastUpdateId = 160` and
both ladders empty is parsed as `Ok(Some(empty book))`, not silently ignored
as a subscription echo (`Ok(None)`). -/
theorem c10_counterexample :
    binanceParse ⟨160, [], [], .null, 1⟩ 0 =
      .ok (some (Orderbook.new "binance" 0)) ∧
    (Except.ok (some (Orderbook.new "binance" 0)) :
        Except String (Option Orderbook)) ≠ .ok none := by
  constructor
  · rfl
  · simp

/-- C10 (amended): `binance_parser` returns `None` exactly when the
deserialized frame has `lastUpdateId = 0` and empty `bids` and `asks`
(regardless of `result`); with a non-null `result` and any of those broken
the frame errors with "result not empty"; and a null-`result` frame with
non-zero `lastUpdateId` but empty ladders yields an empty book, not `None`. -/
theorem c10_binance_classification (pbd : PartialBookDepth) (now : ℕ) :
    (binanceParse pbd now = .ok none ↔
      pbd.last_update_id = 0 ∧ pbd.bids = [] ∧ pbd.asks = []) ∧
    (pbd.result ≠ .null →
      ¬(pbd.last_update_id = 0 ∧ pbd.bids = [] ∧ pbd.asks = []) →
      binanceParse pbd now = .error "result not empty") ∧
    (pbd.result = .null → pbd.last_update_id ≠ 0 → pbd.bids = [] →
      pbd.asks = [] →
      binanceParse pbd now = .ok (some (Orderbook.new "binance" now))) := by
  by_cases hecho : pbd.last_update_id = 0 ∧ pbd.bids = [] ∧ pbd.asks = []
  · refine ⟨?_, ?_, ?_⟩
    · simp [binanceParse, hecho]
    · intro _ h
      exact absurd hecho h
    · intro _ hl
      exact absurd hecho.1 hl
  · by_cases hres : pbd.result = .null
    · have hner : ¬ pbd.result ≠ SerdeValue.null := by simpa using hres
      refine ⟨?_, ?_, ?_⟩
      · constructor
        · intro h
          exfalso
          simp only [binanceParse, if_neg hecho, if_neg hner] at h
          cases h1 : insertPairs .Bid pbd.bids (Orderbook.new "binance" now) now with
          | error e => rw [h1] at h; exact Except.noConfusion h
          | ok ob =>
            rw [h1] at h
            cases h2 : insertPairs .Ask pbd.asks ob now with
            | error e => simp [h2] at h
            | ok ob2 => simp [h2] at h
        · intro h
          exact absurd h hecho
      · intro h _
        exact absurd hres h
      · intro _ _ hb ha
        have hl : pbd.last_update_id ≠ 0 := by
          intro h0
          exact hecho ⟨h0, hb, ha⟩
        simp [binanceParse, hecho, hner, hb, ha, insertPairs, hl]
    · refine ⟨?_, ?_, ?_⟩
      · constructor
        · intro h
          simp only [binanceParse, if_neg hecho] at h
          rw [if_pos (by simpa using hres)] at h
          exact Except.noConfusion h
        · intro h
          exact absurd h hecho
      · intro _ _
        simp only [binanceParse, if_neg hecho]
        rw [if_pos (by simpa using hres)]
      · intro h
        exact absurd h hres

/-! ## C1: where the ten-entry cap lives. -/

/-- Total number of `(exchange, quantity)` contributions in an aggregated
ladder — one per `Level` that `finalize` will emit for it. -/
def entryCount (l : List (Dec × List (String × Dec))) : ℕ :=
  (l.map (fun pe => pe.2.length)).sum

theorem entryCount_aggAdd (n : String) (p : Dec) (v : Dec) :
    ∀ l, entryCount (aggAdd n p v l) = entryCount l + 1 := by
  intro l
  induction l with
  | nil => simp [aggAdd, entryCount]
  | cons kv rest ih =>
    obtain ⟨k, es⟩ := kv
    by_cases h1 : p < k
    · simp only [aggAdd, if_pos h1, entryCount, List.map_cons, List.sum_cons]
      simp [entryCount]
      omega
    · by_cases h2 : p = k
      · simp only [aggAdd, if_neg h1, if_pos h2, entryCount, List.map_cons,
          List.sum_cons, List.length_append]
        simp
        omega
      · simp only [aggAdd, if_neg h1, if_neg h2, entryCount, List.map_cons,
          List.sum_cons]
        have := ih
        simp only [entryCount] at this
        omega

theorem entryCount_foldl (n : String) (entries : List (Dec × Dec)) :
    ∀ acc, entryCount (entries.foldl
        (fun a pv => aggAdd n pv.1 pv.2 a) acc) =
      entryCount acc + entries.length := by
  induction entries with
  | nil => intro acc; simp
  | cons e rest ih =>
    intro acc
    simp only [List.foldl_cons, List.length_cons]
    rw [ih (aggAdd n e.1 e.2 acc), entryCount_aggAdd]
    omega

theorem aggLevels_length (l : List (Dec × List (String × Dec))) :
    (aggLevels l).length = entryCount l := by
  simp [aggLevels, entryCount, List.length_flatMap, Function.comp_def,
    List.length_map]

theorem entryCount_reverse (l : List (Dec × List (String × Dec))) :
    entryCount l.reverse = entryCount l := by
  simp [entryCount, List.map_reverse, List.sum_reverse]

theorem entryCount_mergeAll_le (obs : List Orderbook) :
    ∀ agg : AggregatedOrderbook,
      entryCount ((obs.foldl AggregatedOrderbook.merge agg).bid) ≤
        entryCount agg.bid + 10 * obs.length ∧
      entryCount ((obs.foldl AggregatedOrderbook.merge agg).ask) ≤
        entryCount agg.ask + 10 * obs.length := by
  induction obs with
  | nil => intro agg; simp
  | cons ob rest ih =>
    intro agg
    have hstep_bid :
        entryCount ((agg.merge ob).bid) ≤ entryCount agg.bid + 10 := by
      simp only [AggregatedOrderbook.merge]
      rw [entryCount_foldl]
      have : (ob.bid.take 10).length ≤ 10 := by
        simp [List.length_take]
      omega
    have hstep_ask :
        entryCount ((agg.merge ob).ask) ≤ entryCount agg.ask + 10 := by
      simp only [AggregatedOrderbook.merge]
      rw [entryCount_foldl]
      have : (ob.ask.take 10).length ≤ 10 := by
        simp [List.length_take]
      omega
    have h := ih (agg.merge ob)
    simp only [List.foldl_cons, List.length_cons]
    constructor
    · calc entryCount ((rest.foldl AggregatedOrderbook.merge
            (agg.merge ob)).bid) ≤
            entryCount ((agg.merge ob).bid) + 10 * rest.length := h.1
        _ ≤ entryCount agg.bid + 10 + 10 * rest.length := by omega
        _ = entryCount agg.bid + 10 * (rest.length + 1) := by ring
    · calc entryCount ((rest.foldl AggregatedOrderbook.merge
            (agg.merge ob)).ask) ≤
            entryCount ((agg.merge ob).ask) + 10 * rest.length := h.2
        _ ≤ entryCount agg.ask + 10 + 10 * rest.length := by omega
        _ = entryCount agg.ask + 10 * (rest.length + 1) := by ring

/-- A book with six ask levels at prices 1..6. -/
def bookC : Orderbook :=
  { name := "C", timestamp := 0, volume := 0, last_price := 0, bid := [],
    ask := [(1, 1), (2, 1), (3, 1), (4, 1), (5, 1), (6, 1)] }

/-- A book with six ask levels at prices 7..12. -/
def bookD : Orderbook :=
  { name := "D", timestamp := 0, volume := 0, last_price := 0, bid := [],
    ask := [(7, 1), (8, 1), (9, 1), (10, 1), (11, 1), (12, 1)] }

/-- C1 counterexample: merging two books of six disjoint ask levels each and
finalizing yields twelve ask entries — `finalize` applies no ten-entry cap. -/
theorem c1_counterexample :
    ((mergeAll [bookC, bookD]).finalize).asks.length = 12 ∧
      ¬ ((mergeAll [bookC, bookD]).finalize).asks.length ≤ 10 := by
  constructor
  · decide
  · decide

/-- C1 (amended): `finalize` itself caps nothing; the ten-entry cap is
applied inside `merge`, once per merged book and side, so a summary built by
merging `k` books holds at most `10 · k` entries per side (at most 10 when a
single book was merged). -/
theorem c1_merge_caps_entries (obs : List Orderbook) :
    ((mergeAll obs).finalize).bids.length ≤ 10 * obs.length ∧
      ((mergeAll obs).finalize).asks.length ≤ 10 * obs.length := by
  have h := entryCount_mergeAll_le obs AggregatedOrderbook.new
  simp only [AggregatedOrderbook.new, entryCount, List.map_nil,
    List.sum_nil, Nat.zero_add] at h
  constructor
  · show (aggLevels (mergeAll obs).bid.reverse).length ≤ 10 * obs.length
    rw [aggLevels_length, entryCount_reverse]
    exact h.1
  · show (aggLevels (mergeAll obs).ask).length ≤ 10 * obs.length
    rw [aggLevels_length]
    exact h.2

/-! ## C8: which levels `merge` contributes. -/

/-- A book with eleven bid levels at prices 1..11 (best bid: 11). -/
def book11 : Orderbook :=
  { name := "E", timestamp := 0, volume := 0, last_price := 0,
    bid := [(1, 1), (2, 1), (3, 1), (4, 1), (5, 1), (6, 1), (7, 1), (8, 1),
            (9, 1), (10, 1), (11, 1)],
    ask := [] }

/-- The contribution vector stored at price `p` (empty when `p` is absent). -/
def groupAt (p : Dec) (l : List (Dec × List (String × Dec))) :
    List (String × Dec) :=
  (mapLookup p l).getD []

theorem aggAdd_mem {n : String} {p v : Dec} {x : Dec × List (String × Dec)} :
    ∀ {l}, x ∈ aggAdd n p v l → x.1 = p ∨ x ∈ l := by
  intro l
  induction l with
  | nil => intro hx; simp only [aggAdd, List.mem_singleton] at hx; simp [hx]
  | cons kv rest ih =>
    obtain ⟨k, es⟩ := kv
    intro hx
    by_cases h1 : p < k
    · simp only [aggAdd, if_pos h1, List.mem_cons] at hx
      rcases hx with h | h | h
      · simp [h]
      · exact Or.inr (by simp [h])
      · exact Or.inr (List.mem_cons_of_mem _ h)
    · by_cases h2 : p = k
      · simp only [aggAdd, if_neg h1, if_pos h2, List.mem_cons] at hx
        rcases hx with h | h
        · simp [h, h2]
        · exact Or.inr (List.mem_cons_of_mem _ h)
      · simp only [aggAdd, if_neg h1, if_neg h2, List.mem_cons] at hx
        rcases hx with h | h
        · exact Or.inr (by simp [h])
        · rcases ih h with h' | h'
          · exact Or.inl h'
          · exact Or.inr (List.mem_cons_of_mem _ h')

theorem aggAdd_sorted {n : String} {p v : Dec} :
    ∀ {l}, MapSorted l → MapSorted (aggAdd n p v l) := by
  intro l
  induction l with
  | nil => intro _; simp [aggAdd, MapSorted]
  | cons kv rest ih =>
    obtain ⟨k, es⟩ := kv
    intro hs
    have hhead : ∀ x ∈ rest, k < x.1 := (List.pairwise_cons.mp hs).1
    have htail : MapSorted rest := (List.pairwise_cons.mp hs).2
    by_cases h1 : p < k
    · simp only [aggAdd, if_pos h1]
      refine List.pairwise_cons.mpr ⟨?_, hs⟩
      intro x hx
      rcases List.mem_cons.mp hx with h | h
      · simpa [h] using h1
      · exact h1.trans (hhead x h)
    · by_cases h2 : p = k
      · simp only [aggAdd, if_neg h1, if_pos h2]
        exact List.pairwise_cons.mpr ⟨hhead, htail⟩
      · have hk : k < p := by
          rcases lt_trichotomy p k with h | h | h
          · exact absurd h h1
          · exact absurd h h2
          · exact h
        simp only [aggAdd, if_neg h1, if_neg h2]
        refine List.pairwise_cons.mpr ⟨?_, ih htail⟩
        intro x hx
        rcases aggAdd_mem hx with h | h
        · simpa [h] using hk
        · exact hhead x h

theorem groupAt_aggAdd {n : String} {p v q : Dec} :
    ∀ {l}, MapSorted l →
      groupAt q (aggAdd n p v l) =
        if q = p then groupAt q l ++ [(n, v)] else groupAt q l := by
  intro l
  induction l with
  | nil =>
    intro _
    by_cases hq : q = p
    · simp [groupAt, aggAdd, mapLookup, hq]
    · have hpq : ¬ p = q := fun h => hq h.symm
      simp [groupAt, aggAdd, mapLookup, hq, hpq]
  | cons kv rest ih =>
    obtain ⟨k, es⟩ := kv
    intro hs
    have hhead : ∀ x ∈ rest, k < x.1 := (List.pairwise_cons.mp hs).1
    have htail : MapSorted rest := (List.pairwise_cons.mp hs).2
    rcases lt_trichotomy p k with h1 | h1 | h1
    · -- the new price is inserted in front
      by_cases hq : q = p
      · have hkne : ¬ k = p := ne_of_gt h1
        have hrest : mapLookup p rest = none :=
          mapLookup_eq_none fun x h => ne_of_gt (h1.trans (hhead x h))
        simp [groupAt, aggAdd, if_pos h1, mapLookup, hq, hkne, hrest]
      · have hpq : ¬ p = q := fun h => hq h.symm
        simp [groupAt, aggAdd, if_pos h1, mapLookup, hq, hpq]
    · -- the new contribution is appended to the head entry's vector
      have hnlt : ¬ p < k := by rw [h1]; exact lt_irrefl k
      by_cases hq : q = p
      · have hkq : k = q := by rw [hq]; exact h1.symm
        simp [groupAt, aggAdd, if_neg hnlt, if_pos h1, mapLookup, hq, hkq,
          h1.symm]
      · have hkq : ¬ k = q := by
          intro h
          apply hq
          rw [← h]
          exact h1.symm
        simp [groupAt, aggAdd, if_neg hnlt, if_pos h1, mapLookup, hq, hkq]
    · -- the head entry is below the new price: recurse
      have hnlt : ¬ p < k := not_lt_of_gt h1
      have hne : ¬ p = k := ne_of_gt h1
      by_cases hkq : k = q
      · subst hkq
        have hq : ¬ k = p := ne_of_lt h1
        simp [groupAt, aggAdd, if_neg hnlt, if_neg hne, mapLookup, hq]
      · have hrec := ih htail
        simp only [groupAt] at hrec
        simp [groupAt, aggAdd, if_neg hnlt, if_neg hne, mapLookup, hkq, hrec]

theorem foldl_aggAdd_sorted (n : String) (entries : List (Dec × Dec)) :
    ∀ acc, MapSorted acc →
      MapSorted (entries.foldl (fun a pv => aggAdd n pv.1 pv.2 a) acc) := by
  induction entries with
  | nil => intro acc h; exact h
  | cons e rest ih =>
    intro acc h
    exact ih _ (aggAdd_sorted h)

theorem groupAt_foldl (n : String) (q : Dec) (entries : List (Dec × Dec)) :
    ∀ acc, MapSorted acc →
      groupAt q (entries.foldl (fun a pv => aggAdd n pv.1 pv.2 a) acc) =
        groupAt q acc ++
          (entries.filter (fun pv => decide (pv.1 = q))).map
            (fun pv => (n, pv.2)) := by
  induction entries with
  | nil => intro acc _; simp
  | cons e rest ih =>
    intro acc hacc
    simp only [List.foldl_cons]
    rw [ih _ (aggAdd_sorted hacc), groupAt_aggAdd hacc]
    by_cases hq : q = e.1
    · have : decide (e.1 = q) = true := by simp [hq]
      simp only [List.filter_cons, this, if_pos hq, List.map_cons]
      simp
    · have : ¬ (e.1 = q) := fun h => hq h.symm
      simp only [List.filter_cons, if_neg hq]
      simp [this]

/-- `merge` keeps the aggregated ladders sorted. -/
theorem merge_sorted (agg : AggregatedOrderbook) (ob : Orderbook)
    (hb : MapSorted agg.bid) (ha : MapSorted agg.ask) :
    MapSorted ((agg.merge ob).bid) ∧ MapSorted ((agg.merge ob).ask) :=
  ⟨foldl_aggAdd_sorted _ _ _ hb, foldl_aggAdd_sorted _ _ _ ha⟩

/-- C8 counterexample: merging a book with eleven bid levels at prices 1..11
into a fresh aggregator contributes price 1 (a worst bid) and not price 11
(the best bid) — the bid side contributes its ten lowest prices, not its ten
best. -/
theorem c8_counterexample :
    mapLookup 11 ((AggregatedOrderbook.new.merge book11).bid) = none ∧
      mapLookup 1 ((AggregatedOrderbook.new.merge book11).bid) =
        some [("E", 1)] := by
  constructor
  · decide
  · decide

/-- C8 (amended): `merge(book)` appends a `(name, qty)` contribution at each
of the first up-to-10 levels of `book.bid` and `book.ask` in ascending map
order and leaves everything else unchanged — for asks those are the 10
lowest-priced (best) levels, but for bids they are also the 10 lowest-priced,
i.e. the worst: with more than 10 bid levels the highest bids are ignored. -/
theorem c8_merge_first_ten (agg : AggregatedOrderbook) (ob : Orderbook)
    (q : Dec) (hb : MapSorted agg.bid) (ha : MapSorted agg.ask) :
    groupAt q ((agg.merge ob).bid) =
      groupAt q agg.bid ++
        ((ob.bid.take 10).filter (fun pv => decide (pv.1 = q))).map
          (fun pv => (ob.name, pv.2)) ∧
    groupAt q ((agg.merge ob).ask) =
      groupAt q agg.ask ++
        ((ob.ask.take 10).filter (fun pv => decide (pv.1 = q))).map
          (fun pv => (ob.name, pv.2)) :=
  ⟨groupAt_foldl ob.name q (ob.bid.take 10) agg.bid hb,
   groupAt_foldl ob.name q (ob.ask.take 10) agg.ask ha⟩

theorem c8_merge_first_ten_witness :
    groupAt 1 ((AggregatedOrderbook.new.merge bookC).ask) =
      groupAt 1 AggregatedOrderbook.new.ask ++
        ((bookC.ask.take 10).filter (fun pv => decide (pv.1 = 1))).map
          (fun pv => (bookC.name, pv.2)) ∧
    groupAt 1 ((AggregatedOrderbook.new.merge bookC).ask) = [("C", 1)] :=
  ⟨(c8_merge_first_ten AggregatedOrderbook.new bookC 1
      (by decide) (by decide)).2,
   by decide⟩

/-! ## C7: ordering and tie-breaking of `finalize`. -/

theorem aggLevels_cons (pe : Dec × List (String × Dec))
    (rest : List (Dec × List (String × Dec))) :
    aggLevels (pe :: rest) =
      pe.2.map (fun nv => Level.mk nv.1 pe.1 nv.2) ++ aggLevels rest := by
  simp [aggLevels]

theorem groupAt_cons (p k : Dec) (es : List (String × Dec))
    (rest : List (Dec × List (String × Dec))) :
    groupAt p ((k, es) :: rest) = if k = p then es else groupAt p rest := by
  by_cases h : k = p <;> simp [groupAt, mapLookup, h]

theorem aggLevels_price_mem {lv : Level} :
    ∀ {l}, lv ∈ aggLevels l → lv.price ∈ l.map (fun pe => pe.1) := by
  intro l hlv
  rcases List.mem_flatMap.mp hlv with ⟨pe, hpe, hl⟩
  rcases List.mem_map.mp hl with ⟨nv, _, hnv⟩
  have hp : lv.price = pe.1 := by rw [← hnv]
  rw [hp]
  exact List.mem_map.mpr ⟨pe, hpe, rfl⟩

theorem aggLevels_pairwise {R : Dec → Dec → Prop} (hrefl : ∀ p, R p p) :
    ∀ {l}, List.Pairwise (fun a b => R a.1 b.1) l →
      List.Pairwise (fun a b : Level => R a.price b.price) (aggLevels l) := by
  intro l
  induction l with
  | nil => intro _; simp [aggLevels]
  | cons pe rest ih =>
    intro hp
    have hhead : ∀ x ∈ rest, R pe.1 x.1 := (List.pairwise_cons.mp hp).1
    have htail := (List.pairwise_cons.mp hp).2
    rw [aggLevels_cons]
    refine List.pairwise_append.mpr ⟨?_, ih htail, ?_⟩
    · rw [List.pairwise_map]
      exact List.pairwise_of_forall fun a b => hrefl pe.1
    · intro a ha b hb
      rcases List.mem_map.mp ha with ⟨nv, _, hnv⟩
      have hap : a.price = pe.1 := by rw [← hnv]
      rcases List.mem_map.mp (aggLevels_price_mem hb) with ⟨x, hx, hxp⟩
      rw [hap, ← hxp]
      exact hhead x hx

/-- Distinct keys (what a `BTreeMap` guarantees; implied by `MapSorted`). -/
def KeysNodup (l : List (Dec × List (String × Dec))) : Prop :=
  List.Pairwise (fun a b => a.1 ≠ b.1) l

theorem keysNodup_of_sorted {l} (h : MapSorted l) : KeysNodup l :=
  h.imp fun hlt => ne_of_lt hlt

theorem keysNodup_reverse {l} (h : KeysNodup l) : KeysNodup l.reverse :=
  List.pairwise_reverse.mpr (h.imp fun hne => hne.symm)

theorem aggLevels_filter_eq_nil {p : Dec} {l}
    (h : ∀ x ∈ l, x.1 ≠ p) :
    (aggLevels l).filter (fun lv => decide (lv.price = p)) = [] := by
  refine List.filter_eq_nil_iff.mpr ?_
  intro lv hlv
  rcases List.mem_map.mp (aggLevels_price_mem hlv) with ⟨x, hx, hxp⟩
  simp only [decide_eq_true_eq]
  rw [← hxp]
  exact h x hx

theorem aggLevels_filter {p : Dec} :
    ∀ {l}, KeysNodup l →
      (aggLevels l).filter (fun lv => decide (lv.price = p)) =
        (groupAt p l).map (fun nv => Level.mk nv.1 p nv.2) := by
  intro l
  induction l with
  | nil => intro _; simp [aggLevels, groupAt, mapLookup]
  | cons pe rest ih =>
    intro hnd
    have hhead : ∀ x ∈ rest, pe.1 ≠ x.1 := (List.pairwise_cons.mp hnd).1
    have htail : KeysNodup rest := (List.pairwise_cons.mp hnd).2
    obtain ⟨k, es⟩ := pe
    rw [aggLevels_cons, List.filter_append, groupAt_cons]
    by_cases hk : k = p
    · subst hk
      have hrest :
          (aggLevels rest).filter (fun lv => decide (lv.price = k)) = [] :=
        aggLevels_filter_eq_nil fun x hx => (hhead x hx).symm
      rw [hrest, if_pos rfl, List.append_nil]
      have : ∀ lv ∈ es.map (fun nv => Level.mk nv.1 k nv.2),
          decide (lv.price = k) = true := by
        intro lv hlv
        rcases List.mem_map.mp hlv with ⟨nv, _, hnv⟩
        simp [← hnv]
      rw [List.filter_eq_self.mpr this]
    · have hmap :
          (es.map (fun nv => Level.mk nv.1 k nv.2)).filter
            (fun lv => decide (lv.price = p)) = [] := by
        refine List.filter_eq_nil_iff.mpr ?_
        intro lv hlv
        rcases List.mem_map.mp hlv with ⟨nv, _, hnv⟩
        simp [← hnv, hk]
      rw [hmap, if_neg hk, List.nil_append]
      exact ih htail

theorem mapLookup_mem {α : Type} {p : Dec} {v : α} :
    ∀ {l : List (Dec × α)}, mapLookup p l = some v → (p, v) ∈ l := by
  intro l
  induction l with
  | nil => intro h; exact Option.noConfusion h
  | cons kv rest ih =>
    obtain ⟨k, w⟩ := kv
    intro h
    by_cases hk : k = p
    · simp only [mapLookup, if_pos hk] at h
      have : w = v := Option.some.inj h
      rw [← hk, ← this]
      exact List.mem_cons_self _ _
    · simp only [mapLookup, if_neg hk] at h
      exact List.mem_cons_of_mem _ (ih h)

theorem mapLookup_of_mem {α : Type} {p : Dec} {v : α} :
    ∀ {l : List (Dec × α)}, List.Pairwise (fun a b => a.1 ≠ b.1) l →
      (p, v) ∈ l → mapLookup p l = some v := by
  intro l
  induction l with
  | nil => intro _ h; exact absurd h (List.not_mem_nil _)
  | cons kv rest ih =>
    obtain ⟨k, w⟩ := kv
    intro hnd hmem
    have hhead : ∀ x ∈ rest, k ≠ x.1 := (List.pairwise_cons.mp hnd).1
    have htail := (List.pairwise_cons.mp hnd).2
    rcases List.mem_cons.mp hmem with h | h
    · have hk : k = p := by rw [Prod.ext_iff] at h; exact h.1.symm
      have hw : w = v := by rw [Prod.ext_iff] at h; exact h.2.symm
      simp [mapLookup, hk, hw]
    · by_cases hk : k = p
      · exact absurd hk (by simpa using hhead (p, v) h)
      · simp only [mapLookup, if_neg hk]
        exact ih htail h

theorem mapLookup_eq_none_iff {α : Type} {p : Dec} :
    ∀ {l : List (Dec × α)}, mapLookup p l = none ↔ ∀ x ∈ l, x.1 ≠ p := by
  intro l
  constructor
  · induction l with
    | nil => intro _ x hx; exact absurd hx (List.not_mem_nil _)
    | cons kv rest ih =>
      obtain ⟨k, w⟩ := kv
      intro h x hx
      by_cases hk : k = p
      · simp [mapLookup, hk] at h
      · simp only [mapLookup, if_neg hk] at h
        rcases List.mem_cons.mp hx with h1 | h1
        · rw [h1]
          exact hk
        · exact ih h x h1
  · exact mapLookup_eq_none

theorem groupAt_reverse {p : Dec} {l} (hnd : KeysNodup l) :
    groupAt p l.reverse = groupAt p l := by
  cases hl : mapLookup p l with
  | some v =>
    have hmem : (p, v) ∈ l.reverse := List.mem_reverse.mpr (mapLookup_mem hl)
    have := mapLookup_of_mem (keysNodup_reverse hnd) hmem
    simp [groupAt, hl, this]
  | none =>
    have hall := mapLookup_eq_none_iff.mp hl
    have : mapLookup p l.reverse = none :=
      mapLookup_eq_none fun x hx => hall x (List.mem_reverse.mp hx)
    simp [groupAt, hl, this]

/-- Ladders of `mergeAll` are sorted. -/
theorem mergeAll_fold_sorted (obs : List Orderbook) :
    ∀ agg : AggregatedOrderbook, MapSorted agg.bid → MapSorted agg.ask →
      MapSorted ((obs.foldl AggregatedOrderbook.merge agg).bid) ∧
        MapSorted ((obs.foldl AggregatedOrderbook.merge agg).ask) := by
  induction obs with
  | nil => intro agg hb ha; exact ⟨hb, ha⟩
  | cons ob rest ih =>
    intro agg hb ha
    have h := merge_sorted agg ob hb ha
    exact ih _ h.1 h.2

/-- The `(exchange, quantity)` contributions at bid price `p` in merge
order: one per book whose first ten bid levels hold `p`. -/
def contribsBid (p : Dec) (obs : List Orderbook) : List (String × Dec) :=
  obs.flatMap fun ob =>
    ((ob.bid.take 10).filter (fun pv => decide (pv.1 = p))).map
      (fun pv => (ob.name, pv.2))

/-- The `(exchange, quantity)` contributions at ask price `p` in merge
order. -/
def contribsAsk (p : Dec) (obs : List Orderbook) : List (String × Dec) :=
  obs.flatMap fun ob =>
    ((ob.ask.take 10).filter (fun pv => decide (pv.1 = p))).map
      (fun pv => (ob.name, pv.2))

theorem groupAt_fold_merge (p : Dec) (obs : List Orderbook) :
    ∀ agg : AggregatedOrderbook, MapSorted agg.bid → MapSorted agg.ask →
      groupAt p ((obs.foldl AggregatedOrderbook.merge agg).bid) =
        groupAt p agg.bid ++ contribsBid p obs ∧
      groupAt p ((obs.foldl AggregatedOrderbook.merge agg).ask) =
        groupAt p agg.ask ++ contribsAsk p obs := by
  induction obs with
  | nil => intro agg _ _; simp [contribsBid, contribsAsk]
  | cons ob rest ih =>
    intro agg hb ha
    have hms := merge_sorted agg ob hb ha
    have hrec := ih (agg.merge ob) hms.1 hms.2
    have hstep := c8_merge_first_ten agg ob p hb ha
    simp only [List.foldl_cons]
    constructor
    · rw [hrec.1, hstep.1]
      simp only [contribsBid, List.flatMap_cons, List.append_assoc]
    · rw [hrec.2, hstep.2]
      simp only [contribsAsk, List.flatMap_cons, List.append_assoc]

/-- C7: after any sequence of merges into a fresh aggregator, the finalized
`bids` are non-increasing and the `asks` non-decreasing in price, and the
entries at any price `p` are exactly the `(exchange, quantity)`
contributions of the merged books, in merge order (each book contributing
through the first ten levels of its ladder). -/
theorem c7_finalize_order (obs : List Orderbook) :
    List.Pairwise (fun a b : Level => b.price ≤ a.price)
      ((mergeAll obs).finalize).bids ∧
    List.Pairwise (fun a b : Level => a.price ≤ b.price)
      ((mergeAll obs).finalize).asks ∧
    ∀ p : Dec,
      ((mergeAll obs).finalize).bids.filter
          (fun lv => decide (lv.price = p)) =
        (contribsBid p obs).map (fun nv => Level.mk nv.1 p nv.2) ∧
      ((mergeAll obs).finalize).asks.filter
          (fun lv => decide (lv.price = p)) =
        (contribsAsk p obs).map (fun nv => Level.mk nv.1 p nv.2) := by
  have hnew_b : MapSorted (AggregatedOrderbook.new).bid := by
    simp [AggregatedOrderbook.new, MapSorted]
  have hnew_a : MapSorted (AggregatedOrderbook.new).ask := by
    simp [AggregatedOrderbook.new, MapSorted]
  obtain ⟨hb, ha⟩ := mergeAll_fold_sorted obs AggregatedOrderbook.new
    hnew_b hnew_a
  have hb2 : MapSorted (mergeAll obs).bid := hb
  have ha2 : MapSorted (mergeAll obs).ask := ha
  refine ⟨?_, ?_, ?_⟩
  · show List.Pairwise _ (aggLevels (mergeAll obs).bid.reverse)
    refine aggLevels_pairwise (R := fun a b => b ≤ a) (fun q => le_refl q) ?_
    exact List.pairwise_reverse.mpr (hb2.imp fun h => le_of_lt h)
  · show List.Pairwise _ (aggLevels (mergeAll obs).ask)
    exact aggLevels_pairwise (R := fun a b => a ≤ b) (fun q => le_refl q)
      (ha2.imp fun h => le_of_lt h)
  · intro p
    have hgb : groupAt p (mergeAll obs).bid = contribsBid p obs := by
      have h := (groupAt_fold_merge p obs AggregatedOrderbook.new
        hnew_b hnew_a).1
      simpa [AggregatedOrderbook.new, groupAt, mapLookup] using h
    have hga : groupAt p (mergeAll obs).ask = contribsAsk p obs := by
      have h := (groupAt_fold_merge p obs AggregatedOrderbook.new
        hnew_b hnew_a).2
      simpa [AggregatedOrderbook.new, groupAt, mapLookup] using h
    constructor
    · show (aggLevels (mergeAll obs).bid.reverse).filter _ = _
      rw [aggLevels_filter (keysNodup_reverse (keysNodup_of_sorted hb2)),
        groupAt_reverse (keysNodup_of_sorted hb2), hgb]
    · show (aggLevels (mergeAll obs).ask).filter _ = _
      rw [aggLevels_filter (keysNodup_of_sorted ha2), hga]

/-! ## C4: independentreserve snapshot and zero-quantity delta. -/

/-- The ladder-level effect of one `insert` loop: for each unit, remove the
price and re-insert it when the volume is non-zero. -/
def insUnitsLadder (units : List IRUnit) (l : List (Dec × Dec)) :
    List (Dec × Dec) :=
  units.foldl
    (fun m u =>
      if u.volume ≠ 0 then mapInsert u.price u.volume (mapRemove u.price m)
      else mapRemove u.price m) l

theorem insertUnits_bid_eq (units : List IRUnit) :
    ∀ (ob : Orderbook) (now : ℕ),
      (insertUnits .Bid units ob now).bid = insUnitsLadder units ob.bid ∧
      (insertUnits .Bid units ob now).ask = ob.ask := by
  induction units with
  | nil => intro ob now; exact ⟨rfl, rfl⟩
  | cons u rest ih =>
    intro ob now
    have h := ih (ob.insert .Bid u.price u.volume now) now
    refine ⟨?_, ?_⟩
    · rw [insertUnits] at h ⊢
      simp only [List.foldl_cons]
      rw [h.1]
      simp [insUnitsLadder, Orderbook.insert]
    · rw [insertUnits] at h ⊢
      simp only [List.foldl_cons]
      rw [h.2]
      simp [Orderbook.insert]

theorem insertUnits_ask_eq (units : List IRUnit) :
    ∀ (ob : Orderbook) (now : ℕ),
      (insertUnits .Ask units ob now).ask = insUnitsLadder units ob.ask ∧
      (insertUnits .Ask units ob now).bid = ob.bid := by
  induction units with
  | nil => intro ob now; exact ⟨rfl, rfl⟩
  | cons u rest ih =>
    intro ob now
    have h := ih (ob.insert .Ask u.price u.volume now) now
    refine ⟨?_, ?_⟩
    · rw [insertUnits] at h ⊢
      simp only [List.foldl_cons]
      rw [h.1]
      simp [insUnitsLadder, Orderbook.insert]
    · rw [insertUnits] at h ⊢
      simp only [List.foldl_cons]
      rw [h.2]
      simp [Orderbook.insert]

theorem insUnitsLadder_sorted (units : List IRUnit) :
    ∀ {l}, MapSorted l → MapSorted (insUnitsLadder units l) := by
  induction units with
  | nil => intro l h; exact h
  | cons u rest ih =>
    intro l h
    rw [insUnitsLadder]
    simp only [List.foldl_cons]
    rw [← insUnitsLadder]
    by_cases hv : u.volume ≠ 0
    · exact ih (by simpa [hv] using mapInsert_sorted (mapRemove_sorted h))
    · exact ih (by simpa [hv] using mapRemove_sorted h)

/-- The book that an `OrderBookSnapshot` event produces for a channel whose
book was `ob`: both ladders cleared, then every payload level inserted. -/
def irSnapshotBook (ob : Orderbook) (snap : IRSnapshot) (now : ℕ) :
    Orderbook :=
  applyIRSnapshot { ob with bid := [], ask := [] } snap now

theorem irSnapshotBook_ladders (ob : Orderbook) (snap : IRSnapshot)
    (now : ℕ) :
    (irSnapshotBook ob snap now).bid = insUnitsLadder snap.bids [] ∧
      (irSnapshotBook ob snap now).ask = insUnitsLadder snap.asks [] := by
  unfold irSnapshotBook applyIRSnapshot
  constructor
  · rw [(insertUnits_ask_eq snap.asks _ now).2,
      (insertUnits_bid_eq snap.bids _ now).1]
  · rw [(insertUnits_ask_eq snap.asks _ now).1,
      (insertUnits_bid_eq snap.bids _ now).2]

/-- C4: an `OrderBookSnapshot` for a known channel replaces the channel's
book with one whose ladders are rebuilt from the payload alone (both ladders
cleared first), emits that book, and stores it back in the channel map; a
subsequent `OrderBookChange` with quantity 0 at price `p` (an existing level
of the snapshot book) emits a book whose bid ladder is the snapshot ladder
with `p` removed — the level is deleted — with the ask ladder untouched. -/
theorem c4_indreserve_snapshot_change (st : IRState) (ch : String)
    (ob : Orderbook) (snap : IRSnapshot) (now now2 : ℕ) (p q : Dec)
    (hch : hmLookup ch st = some ob)
    (hq : mapLookup p (irSnapshotBook ob snap now).bid = some q) :
    (indreserveParse st (.snapshot ch (.ok snap)) now).2 =
      .ok (some (irSnapshotBook ob snap now)) ∧
    hmLookup ch (indreserveParse st (.snapshot ch (.ok snap)) now).1 =
      some (irSnapshotBook ob snap now) ∧
    (irSnapshotBook ob snap now).bid = insUnitsLadder snap.bids [] ∧
    (irSnapshotBook ob snap now).ask = insUnitsLadder snap.asks [] ∧
    (indreserveParse (indreserveParse st (.snapshot ch (.ok snap)) now).1
        (.change ch (.ok ⟨[⟨p, 0⟩], []⟩)) now2).2 =
      .ok (some (applyIRSnapshot (irSnapshotBook ob snap now)
        ⟨[⟨p, 0⟩], []⟩ now2)) ∧
    (applyIRSnapshot (irSnapshotBook ob snap now) ⟨[⟨p, 0⟩], []⟩ now2).bid =
      mapRemove p (irSnapshotBook ob snap now).bid ∧
    (applyIRSnapshot (irSnapshotBook ob snap now) ⟨[⟨p, 0⟩], []⟩ now2).ask =
      (irSnapshotBook ob snap now).ask ∧
    mapLookup p (applyIRSnapshot (irSnapshotBook ob snap now)
        ⟨[⟨p, 0⟩], []⟩ now2).bid = none := by
  have hsnap : indreserveParse st (.snapshot ch (.ok snap)) now =
      (hmPut ch (irSnapshotBook ob snap now) st,
        .ok (some (irSnapshotBook ob snap now))) := by
    simp [indreserveParse, hch, irSnapshotBook]
  have hlook : hmLookup ch
      (indreserveParse st (.snapshot ch (.ok snap)) now).1 =
      some (irSnapshotBook ob snap now) := by
    rw [hsnap]
    simp [hmPut, hmLookup]
  have hb2 : (applyIRSnapshot (irSnapshotBook ob snap now)
      ⟨[⟨p, 0⟩], []⟩ now2).bid =
      mapRemove p (irSnapshotBook ob snap now).bid := by
    unfold applyIRSnapshot
    rw [(insertUnits_ask_eq [] _ now2).2]
    rw [(insertUnits_bid_eq [⟨p, 0⟩] _ now2).1]
    simp [insUnitsLadder]
  have ha2 : (applyIRSnapshot (irSnapshotBook ob snap now)
      ⟨[⟨p, 0⟩], []⟩ now2).ask = (irSnapshotBook ob snap now).ask := by
    unfold applyIRSnapshot
    rw [(insertUnits_ask_eq [] _ now2).1]
    simp [insUnitsLadder]
    rw [(insertUnits_bid_eq [⟨p, 0⟩] _ now2).2]
  have hsorted : MapSorted (irSnapshotBook ob snap now).bid := by
    rw [(irSnapshotBook_ladders ob snap now).1]
    exact insUnitsLadder_sorted snap.bids (by simp [MapSorted])
  refine ⟨by rw [hsnap], hlook, (irSnapshotBook_ladders ob snap now).1,
    (irSnapshotBook_ladders ob snap now).2, ?_, hb2, ha2, ?_⟩
  · rw [hsnap]
    simp [indreserveParse, hmPut, hmLookup]
  · rw [hb2]
    exact mapLookup_mapRemove_self hsorted

/-- The S3-style concrete state: one pre-allocated channel. -/
def irSt0 : IRState := [("orderbook/5/btc/aud", Orderbook.new "independentreserve" 0)]

/-- A concrete snapshot payload: bids at 4 and 5, one ask at 7. -/
def irSnap0 : IRSnapshot := { bids := [⟨5, 2⟩, ⟨4, 1⟩], asks := [⟨7, 3⟩] }

theorem c4_indreserve_witness :
    hmLookup "orderbook/5/btc/aud" irSt0 =
      some (Orderbook.new "independentreserve" 0) ∧
    mapLookup 5 (irSnapshotBook (Orderbook.new "independentreserve" 0)
      irSnap0 1).bid = some 2 ∧
    (indreserveParse irSt0 (.snapshot "orderbook/5/btc/aud" (.ok irSnap0))
        1).2 =
      .ok (some (irSnapshotBook (Orderbook.new "independentreserve" 0)
        irSnap0 1)) ∧
    mapLookup 5 (applyIRSnapshot (irSnapshotBook
        (Orderbook.new "independentreserve" 0) irSnap0 1)
      ⟨[⟨5, 0⟩], []⟩ 2).bid = none :=
  ⟨by decide, by decide,
   (c4_indreserve_snapshot_change irSt0 "orderbook/5/btc/aud"
     (Orderbook.new "independentreserve" 0) irSnap0 1 2 5 2
     (by decide) (by decide)).1,
   (c4_indreserve_snapshot_change irSt0 "orderbook/5/btc/aud"
     (Orderbook.new "independentreserve" 0) irSnap0 1 2 5 2
     (by decide) (by decide)).2.2.2.2.2.2.2⟩

/-! ## C2, C3: what the driver and supervisor do with parse errors and
fragmented frames. -/

theorem executorRun_book {p : Parse} {cache : String} {f : WsFrame}
    {fs : List WsFrame} {c' : String} {rest : List WsFrame} {ob : Orderbook}
    (h : exchNext p cache (f :: fs) = (c', rest, .book ob)) :
    executorRun p cache (f :: fs) = ob :: executorRun p c' rest := by
  rw [executorRun.eq_2]
  split
  next c2 r2 ob2 heq =>
    rw [h] at heq
    simp only [Prod.mk.injEq, NextResult.book.injEq] at heq
    rw [heq.1, heq.2.1, heq.2.2]
  next c2 r2 heq =>
    rw [h] at heq
    simp at heq
  next c2 r2 e heq =>
    rw [h] at heq
    simp at heq

theorem executorRun_idle {p : Parse} {cache : String} {f : WsFrame}
    {fs : List WsFrame} {c' : String} {rest : List WsFrame}
    (h : exchNext p cache (f :: fs) = (c', rest, .idle)) :
    executorRun p cache (f :: fs) = executorRun p "" rest := by
  rw [executorRun.eq_2]
  split
  next c2 r2 ob2 heq =>
    rw [h] at heq
    simp at heq
  next c2 r2 heq =>
    rw [h] at heq
    simp only [Prod.mk.injEq] at heq
    rw [heq.2.1]
  next c2 r2 e heq =>
    rw [h] at heq
    simp at heq

theorem executorRun_err {p : Parse} {cache : String} {f : WsFrame}
    {fs : List WsFrame} {c' : String} {rest : List WsFrame} {e : String}
    (h : exchNext p cache (f :: fs) = (c', rest, .err e)) :
    executorRun p cache (f :: fs) = executorRun p "" rest := by
  rw [executorRun.eq_2]
  split
  next c2 r2 ob2 heq =>
    rw [h] at heq
    simp at heq
  next c2 r2 heq =>
    rw [h] at heq
    simp at heq
  next c2 r2 e2 heq =>
    rw [h] at heq
    simp only [Prod.mk.injEq] at heq
    rw [heq.2.1]

/-- A sample book emitted by a parser. -/
def sampleBook : Orderbook :=
  { name := "s", timestamp := 0, volume := 0, last_price := 0,
    bid := [(1, 2)], ask := [(3, 4)] }

/-- A registry `parse` function as the driver sees one, pinned to the
concrete frames used below: the complete document "AB" parses to
`sampleBook` and every other frame fails to deserialize, as
`serde_json::from_str` fails on a truncated JSON text. -/
def abParse : Parse := fun s =>
  if s = "AB" then .ok (some sampleBook) else .error "EOF while parsing"

/-- C2 counterexample: a frame whose parse errors makes `next()` return the
error (wrapping the offending raw frame), and the supervisor's reaction to
an `Err` is teardown-and-reconnect, not skip-and-continue. -/
theorem c2_counterexample :
    abParse "X" = .error "EOF while parsing" ∧
    exchNext abParse "" [.text "X"] =
      ("", [], .err ("EOF while parsing" ++ ": raw msg: " ++ "X")) ∧
    executorReaction (exchNext abParse "" [.text "X"]).2.2 =
      .teardownReconnect := by
  refine ⟨rfl, rfl, rfl⟩

/-- C2 (amended): when `parse` fails on a text frame, `Exchange::next`
returns `Err` with the offending raw frame appended to the message and the
`executor` reacts by invoking the clear hook, dropping the `Exchange` and
reconnecting — the frame is skipped but the session is torn down, not
continued. -/
theorem c2_parse_error_reconnects (parse : Parse) (s e cache : String)
    (rest : List WsFrame) (hp : parse s = .error e) :
    exchNext parse cache (.text s :: rest) =
      (cache, rest, .err (e ++ ": raw msg: " ++ s)) ∧
    executorReaction (exchNext parse cache (.text s :: rest)).2.2 =
      .teardownReconnect := by
  have h1 : exchNext parse cache (.text s :: rest) =
      (cache, rest, .err (e ++ ": raw msg: " ++ s)) := by
    simp [exchNext, hp]
  exact ⟨h1, by rw [h1]; rfl⟩

theorem c2_parse_error_reconnects_witness :
    abParse "X" = .error "EOF while parsing" ∧
    exchNext abParse "" [.text "X"] =
      ("", [], .err ("EOF while parsing" ++ ": raw msg: " ++ "X")) ∧
    executorReaction (exchNext abParse "" [.text "X"]).2.2 =
      .teardownReconnect :=
  ⟨rfl,
   (c2_parse_error_reconnects abParse "X" "EOF while parsing" "" [] rfl).1,
   (c2_parse_error_reconnects abParse "X" "EOF while parsing" "" [] rfl).2⟩

/-- C3 (what the code actually does): a frame delivered whole yields its
book, but the same frame split into a fragment-first and a fragment-last
yields nothing — `next()` returns `Ok(None)` for the first fragment, the
executor takes that as stream shutdown and rebuilds the `Exchange`, wiping
the reassembly cache, so the last fragment is parsed alone and fails. -/
theorem c3_fragmented_delivery_differs (p : Parse) (F1 F2 : String)
    (ob : Orderbook) (e : String)
    (h1 : p (F1 ++ F2) = .ok (some ob)) (h2 : p F2 = .error e) :
    executorRun p "" [.text (F1 ++ F2)] = [ob.trim 10] ∧
    executorRun p "" [.fragFirst F1, .fragLast F2] = [] := by
  constructor
  · have hx : exchNext p "" [.text (F1 ++ F2)] =
        ("", [], .book (ob.trim 10)) := by
      simp [exchNext, h1]
    rw [executorRun_book hx, executorRun.eq_1]
  · have hx1 : exchNext p "" [.fragFirst F1, .fragLast F2] =
        ("" ++ F1, [.fragLast F2], .idle) := by
      simp [exchNext]
    rw [executorRun_idle hx1]
    have hx2 : exchNext p "" [.fragLast F2] =
        ("", [], .err (e ++ ": raw msg: " ++ F2)) := by
      simp [exchNext, h2]
    rw [executorRun_err hx2, executorRun.eq_1]

theorem c3_fragmented_delivery_differs_witness :
    abParse ("A" ++ "B") = .ok (some sampleBook) ∧
    abParse "B" = .error "EOF while parsing" ∧
    executorRun abParse "" [.text ("A" ++ "B")] = [sampleBook.trim 10] ∧
    executorRun abParse "" [.fragFirst "A", .fragLast "B"] = [] :=
  ⟨rfl, rfl,
   (c3_fragmented_delivery_differs abParse "A" "B" sampleBook
     "EOF while parsing" rfl rfl).1,
   (c3_fragmented_delivery_differs abParse "A" "B" sampleBook
     "EOF while parsing" rfl rfl).2⟩

end ArbMonitor
